import Mathlib

/-!
Verification of the coverport coverage-collection pipeline.

This file gives a shallow embedding, in Lean 4, of the pure core of the
coverport repository (github.com/konflux-ci/coverport):

* `cli/internal/discovery/discovery.go` — pod discovery, image-reference
  normalization, the system-namespace deny list;
* `cli/internal/snapshot/snapshot.go` — Konflux snapshot parsing results;
* `cli/internal/manifest` and the collection loop of `cli/cmd` (`runCollect`);
* `cli/internal/processor/processor.go` — the NYC/Istanbul converter
  (`remapNYCPaths`, `generateLCOV`, `applyFilters`);
* `clients/nodejs/coverage_client.js` — the path reconciler
  (`_detectContainerPaths`, `_remapCoveragePaths`).

Go maps and JavaScript objects are embedded as association lists in
insertion order; the filesystem and the Kubernetes API are passed in as
explicit data (a list of local files, an existence predicate, a cluster
value).  Machine integers from Go (`int` hit counts) are embedded as `Int`.
-/

/-! ## Generic helpers: association lists in insertion order -/

/-- Lookup in an association list (first binding wins), as a Go map read
`v, ok := m[k]` or a JS `obj[k]`. -/
def assocLookup {κ α : Type} [DecidableEq κ] : List (κ × α) → κ → Option α
  | [], _ => none
  | (k, v) :: rest, key => if k = key then some v else assocLookup rest key

/-- Map/object write `m[k] = v`: overwrite in place if the key is present,
append otherwise (JS objects and our embedding of Go maps keep insertion
order). -/
def mapInsert {κ α : Type} [DecidableEq κ] : List (κ × α) → κ → α → List (κ × α)
  | [], k, v => [(k, v)]
  | (k', v') :: rest, k, v =>
    if k' = k then (k', v) :: rest else (k', v') :: mapInsert rest k v

/-- Go `strings.HasPrefix s pre` (byte prefix; on the character level of the
embedding, a list prefix). -/
def strHasPre (s pre : String) : Bool := pre.data.isPrefixOf s.data

/-- Go `strings.Contains s sub` / JS `s.includes(sub)`. -/
def containsSub (s sub : String) : Bool := decide (sub.data <:+: s.data)

/-- Index of the first occurrence of a character, Go `strings.Index`. -/
def firstIdxOf : List Char → Char → Option Nat
  | [], _ => none
  | x :: xs, c => if x = c then some 0 else (firstIdxOf xs c).map (· + 1)

/-- Index of the last occurrence of a character, Go `strings.LastIndex`. -/
def lastIdxOf : List Char → Char → Option Nat
  | [], _ => none
  | x :: xs, c =>
    match lastIdxOf xs c with
    | some j => some (j + 1)
    | none => if x = c then some 0 else none

/-- Truncate at the first occurrence of `c`, the Go idiom
`if idx := strings.Index(s, c); idx != -1 { s = s[:idx] }`. -/
def stripAtFirst (l : List Char) (c : Char) : List Char :=
  match firstIdxOf l c with
  | some i => l.take i
  | none => l

/-- Go `strings.HasSuffix s suf` / JS `s.endsWith(suf)`. -/
def strHasSuf (s suf : String) : Bool := suf.data.isSuffixOf s.data

/-- Splitting a character list on a separator character (every separator in
the repository — `/` for paths, a newline for report lines — is a single
character). -/
def splitOnChar (c : Char) : List Char → List (List Char)
  | [] => [[]]
  | x :: xs =>
    if x = c then [] :: splitOnChar c xs
    else
      match splitOnChar c xs with
      | h :: t => (x :: h) :: t
      | [] => [[x]]

/-- Go `strings.Split s (String.mk [c])` / JS `s.split(c)`. -/
def strSplitOn (s : String) (c : Char) : List String :=
  (splitOnChar c s.data).map String.mk

/-- Lexicographic comparison of character lists by codepoint. -/
def chLt : List Char → List Char → Bool
  | [], [] => false
  | [], _ :: _ => true
  | _ :: _, [] => false
  | a :: as, b :: bs => if a < b then true else if b < a then false else chLt as bs

/-- The codepoint order on strings, as a Bool; embeds JS default string
comparison (`sort()`, `localeCompare`) on the ASCII paths involved. -/
def strLtB (a b : String) : Bool := chLt a.data b.data

/-! ## Target discovery (`cli/internal/discovery/discovery.go`) -/

/-- Go `strings.TrimSuffix s ".*"`, used by `isSystemNamespace` on its
deny-list entries. -/
def trimDotStar (s : String) : String :=
  if strHasSuf s ".*" then String.mk (s.data.take (s.data.length - 2)) else s

/-- The deny list of `isSystemNamespace`. -/
def systemNamespaceList : List String :=
  ["kube-system", "kube-public", "kube-node-lease", "openshift", "openshift-.*", "default"]

/-- `isSystemNamespace` from discovery.go: every deny-list entry is matched
by `strings.HasPrefix(ns, strings.TrimSuffix(sysNs, ".*"))`. -/
def isSystemNamespace (ns : String) : Bool :=
  systemNamespaceList.any fun sysNs => strHasPre ns (trimDotStar sysNs)

/-- The namespace-selection step of `DiscoverPodsByImages`: a given namespace
is searched alone; with no namespace, all listed namespaces that are not
system namespaces are searched. -/
def namespacesToSearch (allNamespaces : List String) (targetNs : String) : List String :=
  if targetNs ≠ "" then [targetNs]
  else allNamespaces.filter fun ns => !isSystemNamespace ns

/-- `normalizeImageRef` from discovery.go, on the character list of the
image reference: drop a `:tag` suffix at the last colon unless a `@` occurs
at or after that colon, then drop everything from the first `@`. -/
def normalizeImageRefL (l : List Char) : List Char :=
  let afterTag :=
    match lastIdxOf l ':' with
    | some idx => if (l.drop idx).contains '@' then l else l.take idx
    | none => l
  match firstIdxOf afterTag '@' with
  | some idx => afterTag.take idx
  | none => afterTag

/-- `normalizeImageRef` from discovery.go. -/
def normalizeImageRef (s : String) : String := String.mk (normalizeImageRefL s.data)

/-- The image-basename fallback of `extractComponentName`: last `/`-separated
part of the image, truncated at the first `:` and then at the first `@`. -/
def imageBasename (image : String) : String :=
  match (strSplitOn image '/').getLast? with
  | some part => String.mk (stripAtFirst (stripAtFirst part.data ':') '@')
  | none => "unknown"

/-- `extractComponentName` from discovery.go: the labels
`app.kubernetes.io/name`, `app`, `app.kubernetes.io/component` in order,
falling back to the image basename. -/
def extractComponentName (labels : List (String × String)) (image : String) : String :=
  match assocLookup labels "app.kubernetes.io/name" with
  | some n => n
  | none =>
    match assocLookup labels "app" with
    | some n => n
    | none =>
      match assocLookup labels "app.kubernetes.io/component" with
      | some n => n
      | none => imageBasename image

structure Container where
  name : String
  image : String
  deriving DecidableEq

/-- The fields of a Kubernetes pod that discovery reads. -/
structure Pod where
  name : String
  namespaceName : String
  phase : String
  labels : List (String × String)
  containers : List Container
  deriving DecidableEq

/-- `PodInfo` from discovery.go. -/
structure PodInfo where
  name : String
  namespaceName : String
  componentName : String
  image : String
  containerName : String
  deriving DecidableEq

/-- The cluster state that `DiscoverPodsByImages` observes through list
calls: the namespace list and the pod list. -/
structure Cluster where
  namespaces : List String
  pods : List Pod
  deriving DecidableEq

/-- The normalized→original image set of `DiscoverPodsByImages`
(`imageSet[normalizeImageRef(img)] = img`). -/
def buildImageSet (images : List String) : List (String × String) :=
  images.foldl (fun m img => mapInsert m (normalizeImageRef img) img) []

/-- The inner container loop of `DiscoverPodsByImages`: each container whose
normalized image matches a target yields one `PodInfo` (first matching
target wins, then `break`). -/
def podMatches (imageSet : List (String × String)) (pod : Pod) : List PodInfo :=
  pod.containers.filterMap fun container =>
    let normalized := normalizeImageRef container.image
    (imageSet.find? fun e => normalized == e.1).map fun e =>
      { name := pod.name
        namespaceName := pod.namespaceName
        componentName := extractComponentName pod.labels e.2
        image := e.2
        containerName := container.name }

/-- `DiscoverPodsByImages` from discovery.go: search the selected
namespaces, keep running pods, and match container images against the
normalized target set. -/
def DiscoverPodsByImages (cluster : Cluster) (images : List String) (targetNs : String) :
    List PodInfo :=
  let imageSet := buildImageSet images
  (namespacesToSearch cluster.namespaces targetNs).flatMap fun ns =>
    (cluster.pods.filter fun p => p.namespaceName == ns && p.phase == "Running").flatMap
      fun pod => podMatches imageSet pod

/-! ## Snapshot discovery (`cli/internal/snapshot/snapshot.go`, `cli/cmd`) -/

structure SnapshotComponent where
  name : String
  containerImage : String
  deriving DecidableEq

structure Snapshot where
  components : List SnapshotComponent
  deriving DecidableEq

/-- `Snapshot.GetImages`. -/
def Snapshot.GetImages (s : Snapshot) : List String :=
  s.components.map (·.containerImage)

/-- `discoverPodsFromSnapshot` from cli/cmd: after parsing (and printing the
declared component names), it extracts the image list and delegates to the
image path. -/
def discoverPodsFromSnapshot (cluster : Cluster) (snap : Snapshot) (targetNs : String) :
    List PodInfo :=
  DiscoverPodsByImages cluster snap.GetImages targetNs

/-! ## Collection manifest and the `runCollect` loop (`cli/internal/manifest`, `cli/cmd`) -/

/-- `manifest.CollectionParameters`. -/
structure CollectionParameters where
  coveragePort : Int
  filters : List String
  format : String
  namespaceName : String
  deriving DecidableEq

/-- `manifest.ComponentInfo`. -/
structure ComponentInfo where
  name : String
  image : String
  coverageDir : String
  namespaceName : String
  podName : String
  containerName : String
  collectedAt : String
  deriving DecidableEq

/-- `manifest.CollectionManifest`. -/
structure CollectionManifest where
  version : String
  testName : String
  collectedAt : String
  collectionParams : CollectionParameters
  components : List ComponentInfo
  deriving DecidableEq

/-- `manifest.NewCollectionManifest`; the wall-clock creation time is passed
in explicitly. -/
def NewCollectionManifest (testName now : String) (params : CollectionParameters) :
    CollectionManifest :=
  { version := "1.0", testName := testName, collectedAt := now
    collectionParams := params, components := [] }

/-- `manifest.AddComponent` (append to the component list). -/
def AddComponent (m : CollectionManifest) (c : ComponentInfo) : CollectionManifest :=
  { m with components := m.components ++ [c] }

/-- The per-target loop of `runCollect`: `collectFromPod` is passed in as an
oracle that returns the component record exactly when it returns a nil
error (on success the record pointer is always non-nil). A failed target
only prints a warning; the loop proceeds. -/
def collectLoop (m0 : CollectionManifest) (targets : List PodInfo)
    (collect : PodInfo → Option ComponentInfo) : Nat × CollectionManifest :=
  targets.foldl
    (fun acc t =>
      match collect t with
      | some ci => (acc.1 + 1, AddComponent acc.2 ci)
      | none => acc)
    (0, m0)

/-- Observable outcome of the collection phase of `runCollect`. -/
structure RunResult where
  successCount : Nat
  manifest : CollectionManifest
  hardFailure : Bool
  manifestSaves : Nat
  deriving DecidableEq

/-- The collection phase of `runCollect` from cli/cmd: run the loop over all
discovered targets; if no target succeeded, `exitWithError` ends the run
(exit code 1) before the manifest is saved; otherwise the manifest is saved
exactly once after the full pass. -/
def runCollect (testName now : String) (params : CollectionParameters)
    (targets : List PodInfo) (collect : PodInfo → Option ComponentInfo) : RunResult :=
  let m0 := NewCollectionManifest testName now params
  let result := collectLoop m0 targets collect
  if result.1 = 0 then
    { successCount := result.1, manifest := result.2, hardFailure := true, manifestSaves := 0 }
  else
    { successCount := result.1, manifest := result.2, hardFailure := false, manifestSaves := 1 }

/-! ## NYC/Istanbul processor (`cli/internal/processor/processor.go`) -/

/-- `NYCPosition`. -/
structure NYCPosition where
  line : Int
  column : Int
  deriving DecidableEq

/-- `NYCLocation` (the Go fields `Start` and `End`; `End` is a Lean keyword
and is embedded as `stop`). -/
structure NYCLocation where
  start : NYCPosition
  stop : NYCPosition
  deriving DecidableEq

/-- `NYCFunctionInfo`. -/
structure NYCFunctionInfo where
  name : String
  decl : NYCLocation
  loc : NYCLocation
  line : Int
  deriving DecidableEq

/-- `NYCBranchInfo` (the Go field `Type` is embedded as `btype`). -/
structure NYCBranchInfo where
  btype : String
  locations : List NYCLocation
  line : Int
  deriving DecidableEq

/-- `NYCFileCoverage`; the Go maps keyed by id strings are embedded as
association lists in insertion order. -/
structure NYCFileCoverage where
  path : String
  statementMap : List (String × NYCLocation)
  fnMap : List (String × NYCFunctionInfo)
  branchMap : List (String × NYCBranchInfo)
  s : List (String × Int)
  f : List (String × Int)
  b : List (String × List Int)
  deriving DecidableEq

/-- One update of the `lineHits` map in `generateLCOV`: record the count for
the statement's start line, keeping the larger count when the line was seen
before (`if count > existing`). -/
def updateLineHits : List (Int × Int) → Int → Int → List (Int × Int)
  | [], line, count => [(line, count)]
  | (l, e) :: rest, line, count =>
    if l = line then
      (if count > e then (l, count) :: rest else (l, e) :: rest)
    else (l, e) :: updateLineHits rest line count

/-- The `lineHits` loop of `generateLCOV` over the statement map: statements
with no entry in the `s` hit-count map are skipped. -/
def lineHitsAux (s : List (String × Int)) :
    List (String × NYCLocation) → List (Int × Int) → List (Int × Int)
  | [], acc => acc
  | (stmtID, loc) :: rest, acc =>
    match assocLookup s stmtID with
    | some count => lineHitsAux s rest (updateLineHits acc loc.start.line count)
    | none => lineHitsAux s rest acc

/-- The `lineHits` map of `generateLCOV` for one file (the `DA:` lines are
emitted from exactly these line/count pairs). -/
def lineHits (fc : NYCFileCoverage) : List (Int × Int) :=
  lineHitsAux fc.s fc.statementMap []

/-- The content of one `BRDA:line,block,branch,taken` line. -/
structure BRDALine where
  line : Int
  blockID : Nat
  branchNum : Nat
  taken : Int
  deriving DecidableEq

/-- The count lookup of the branch loop in `generateLCOV`:
`fileCoverage.B[fmt.Sprintf("%d", branchID)]`, guarded by
`ok && i < len(branchCounts)`, with 0 as the default. -/
def branchAltCount (b : List (String × List Int)) (key : String) (i : Nat) : Int :=
  match assocLookup b key with
  | some counts => if i < counts.length then counts.getD i 0 else 0
  | none => 0

/-- The `BRDA` lines that `generateLCOV` emits for one file: the branch map
is walked with a synthetic sequential `branchID` starting at 0, one line
per location (alternative), and the hit count is looked up under the
*synthetic* id — not under the branch's own map key. -/
def brdaLines (fc : NYCFileCoverage) : List BRDALine :=
  fc.branchMap.enum.flatMap fun e =>
    (List.range e.2.2.locations.length).map fun i =>
      { line := e.2.2.line, blockID := e.1, branchNum := i
        taken := branchAltCount fc.b (toString e.1) i }

/-- `applyFilters` from processor.go, on the line list of a Go text-format
coverage file: `mode:` lines are always kept, any other line containing one
of the configured filter strings is dropped. -/
def applyFilterLines (filters : List String) (lines : List String) : List String :=
  lines.filter fun line =>
    strHasPre line "mode:" || !(filters.any fun f => containsSub line f)

/-- `applyFilters` on the whole file content (split on newlines, filter,
join with newlines). -/
def applyFilters (filters : List String) (content : String) : String :=
  String.intercalate "\n" (applyFilterLines filters (strSplitOn content (Char.ofNat 10)))

/-! ## Go `path/filepath` (Unix), as used by `remapNYCPaths` -/

/-- The element processing of Go `path.Clean`: skip empty and `.` elements,
resolve `..` against the accumulated stack (the stack is kept reversed,
head = innermost element). -/
def cleanStep (rooted : Bool) (acc : List String) (c : String) : List String :=
  if c = "" ∨ c = "." then acc
  else if c = ".." then
    match acc with
    | [] => if rooted then [] else [".."]
    | a :: rest => if a = ".." then ".." :: a :: rest else rest
  else c :: acc

/-- Go `filepath.Clean` on Unix (lexical simplification: drop empty and `.`
elements, resolve `..`, keep a leading `/`). -/
def clean (path : String) : String :=
  if path = "" then "."
  else
    let rooted := strHasPre path "/"
    let out := ((strSplitOn path '/').foldl (cleanStep rooted) []).reverse
    if rooted then "/" ++ String.intercalate "/" out
    else if out = [] then "." else String.intercalate "/" out

/-- Go `filepath.Dir` on Unix: everything through the last separator,
cleaned; `.` when there is no separator. -/
def goDir (path : String) : String :=
  match lastIdxOf path.data '/' with
  | some i => clean (String.mk (path.data.take (i + 1)))
  | none => clean ""

/-- Go `filepath.Join` of two elements on Unix: non-empty elements joined
with `/`, then cleaned; empty when both are empty. -/
def goJoin (a b : String) : String :=
  if a = "" ∧ b = "" then ""
  else if a = "" then clean b
  else if b = "" then clean a
  else clean (a ++ "/" ++ b)

/-- Go `strings.TrimPrefix`. -/
def trimPre (s pre : String) : String :=
  if strHasPre s pre then String.mk (s.data.drop pre.data.length) else s

/-- Go `filepath.IsAbs` on Unix. -/
def goIsAbs (path : String) : Bool := strHasPre path "/"

/-- The climb loop of `detectNYCSourcePrefix`:
`for !strings.HasPrefix(dir, commonPrefix) && commonPrefix != "/" && commonPrefix != "." { commonPrefix = filepath.Dir(commonPrefix) }`.
The loop always terminates because `filepath.Dir` reaches the guard's `/`
or `.` fixpoints after at most `length + 2` steps; the recursion is fuelled
with that bound. -/
def climbToAncestor : Nat → String → String → String
  | 0, common, _ => common
  | fuel + 1, common, dir =>
    if !strHasPre dir common && common ≠ "/" && common ≠ "." then
      climbToAncestor fuel (goDir common) dir
    else common

/-- `detectNYCSourcePrefix` from processor.go (named `detectNYCSourceRoot`
here): the common ancestor directory of the absolute coverage paths, with a
trailing separator, or `""` when there is none worth stripping. -/
def detectNYCSourceRoot (data : List (String × NYCFileCoverage)) : String :=
  let paths := (data.map Prod.fst).filter goIsAbs
  match paths with
  | [] => ""
  | p0 :: rest =>
    let common := rest.foldl (fun c p => climbToAncestor (c.length + 2) c (goDir p)) (goDir p0)
    if common ≠ "" ∧ common ≠ "/" ∧ common ≠ "." then
      (if strHasSuf common "/" then common else common ++ "/")
    else ""

/-- The fixed fallback container roots tried by `remapNYCPaths` on absolute
paths that the detected source root does not cover. -/
def containerRootList : List String :=
  ["/opt/app-root/src/", "/workspace/", "/app/", "/src/", "/home/node/app/"]

/-- The per-path rewrite of `remapNYCPaths` (`absRepoRoot` is
`filepath.Abs(repoRoot)`, passed in already absolute): strip the detected
source root, else try the fixed container roots on absolute paths, else
join a relative path onto the repo root. -/
def remapNYCPath (sourceRoot absRepoRoot oldPath : String) : String :=
  if sourceRoot ≠ "" ∧ strHasPre oldPath sourceRoot then
    goJoin absRepoRoot (trimPre oldPath sourceRoot)
  else if goIsAbs oldPath then
    match containerRootList.find? (fun root => strHasPre oldPath root) with
    | some root => goJoin absRepoRoot (trimPre oldPath root)
    | none => oldPath
  else goJoin absRepoRoot oldPath

/-- `remapNYCPaths` from processor.go: rebuild the coverage map with every
entry re-keyed by its rewritten path and the entry's `Path` field updated
to the same value (the Go function finally copies `remappedData` back into
the original map and returns the remap count, which is not modeled). -/
def remapNYCPaths (data : List (String × NYCFileCoverage)) (absRepoRoot : String) :
    List (String × NYCFileCoverage) :=
  let sourceRoot := detectNYCSourceRoot data
  data.foldl
    (fun acc e =>
      let np := remapNYCPath sourceRoot absRepoRoot e.1
      mapInsert acc np { e.2 with path := np })
    []

/-! ## Node.js path reconciler (`clients/nodejs/coverage_client.js`) -/

/-- One entry value of an NYC coverage object as the JS client sees it: an
optional `path` property plus the rest of the object, which the client
copies through untouched (spread clone). -/
structure JSVal where
  pathField : Option String
  rest : String
  deriving DecidableEq

/-- JS truthiness of the optional `path` property (`undefined` and `""` are
falsy). -/
def jsTruthy : Option String → Bool
  | none => false
  | some s => s ≠ ""

/-- Insertion into a sorted list, for `sortBy`. -/
def insertBy {α : Type} (lt : α → α → Bool) (x : α) : List α → List α
  | [] => [x]
  | y :: ys => if lt x y then x :: y :: ys else y :: insertBy lt x ys

/-- Insertion sort. `Array.prototype.sort` with a comparator that induces a
strict total order (as both comparators below do on their inputs: string
keys are pairwise distinct) has a uniquely determined result, so insertion
sort embeds it faithfully. -/
def sortBy {α : Type} (lt : α → α → Bool) : List α → List α
  | [] => []
  | x :: xs => insertBy lt x (sortBy lt xs)

/-- `containerFile.split('/').filter(p => p)`. -/
def splitSegs (p : String) : List String :=
  (strSplitOn p '/').filter fun seg => seg ≠ ""

/-- The suffix-alignment score of `_detectContainerPaths`, on reversed
segment lists: length of the common leading run. With
`for (i = 1; i <= min; i++) { if segments at -i are equal then score = i else break }`
the score is the longest common segment suffix. -/
def countEqFront : List String → List String → Nat
  | x :: xs, y :: ys => if x = y then countEqFront xs ys + 1 else 0
  | _, _ => 0

/-- One nomination of `_detectContainerPaths`. -/
structure Nomination where
  containerFile : String
  localFile : String
  matchScore : Nat
  deriving DecidableEq

/-- The best-match scan of `_detectContainerPaths` for one container path:
walk the local index (`relPath ↦ fullPath`, in insertion order), keep only
files with the same filename, and keep the candidate with the strictly
highest suffix-alignment score (first maximum wins). Returns the running
`(bestMatchScore, bestMatch)` pair. -/
def findBestMatch (localFiles : List (String × String)) (cParts : List String)
    (filename : String) : Nat × Option String :=
  localFiles.foldl
    (fun best e =>
      let lParts := strSplitOn e.1 '/'
      if lParts.getLast? = some filename then
        let score := countEqFront cParts.reverse lParts.reverse
        if score > best.1 then (score, some e.2) else best
      else best)
    (0, none)

/-- The nomination loop of `_detectContainerPaths`: every unresolved
(container) path with a best local match and a non-empty container root
nominates a `(containerRoot, nomination)` pair. -/
def nominationsOf (containerFiles : List String) (localFiles : List (String × String)) :
    List (String × Nomination) :=
  containerFiles.filterMap fun cf =>
    let cParts := splitSegs cf
    match cParts.getLast? with
    | none => none
    | some filename =>
      let best := findBestMatch localFiles cParts filename
      match best.2 with
      | none => none
      | some localFull =>
        let rootParts := cParts.take (cParts.length - best.1)
        if rootParts = [] then none
        else
          some ("/" ++ String.intercalate "/" rootParts ++ "/",
            { containerFile := cf, localFile := localFull, matchScore := best.1 })

/-- Append a nomination to its `containerRoot` group (`Map` insertion
order: groups appear in first-nomination order, members in nomination
order). -/
def groupAppend : List (String × List Nomination) → String → Nomination →
    List (String × List Nomination)
  | [], k, n => [(k, [n])]
  | (k', ns) :: rest, k, n =>
    if k' = k then (k', ns ++ [n]) :: rest else (k', ns) :: groupAppend rest k n

/-- Group the nominations by container root. -/
def groupNominations (noms : List (String × Nomination)) :
    List (String × List Nomination) :=
  noms.foldl (fun acc e => groupAppend acc e.1 e.2) []

/-- The sort comparator of `_detectContainerPaths` on root groups: more
members first, ties by ascending root (`localeCompare`, embedded as the
codepoint order on these ASCII paths). -/
def groupBefore (a b : String × List Nomination) : Bool :=
  if a.2.length ≠ b.2.length then decide (b.2.length < a.2.length)
  else strLtB a.1 b.1

/-- The local-root construction for the winning group's first nomination:
`localFile.split(sep)` minus the matched suffix, joined and bracketed by
separators; `none` when nothing is left. -/
def localRootOf (n : Nomination) : Option String :=
  let localParts := strSplitOn n.localFile '/'
  let localRootParts := localParts.take (localParts.length - n.matchScore)
  if localRootParts = [] then none
  else
    let lr := String.intercalate "/" localRootParts
    let lr := if strHasPre lr "/" then lr else "/" ++ lr
    let lr := if strHasSuf lr "/" then lr else lr ++ "/"
    some lr

/-- `_detectContainerPaths` from coverage_client.js. The filesystem is
explicit: `localFiles` is the local index built from the source directory
(`relative path ↦ absolute path`, insertion order of the recursive scan),
and `existsF` is `existsSync`. -/
def detectContainerPaths (data : List (String × JSVal))
    (localFiles : List (String × String)) (existsF : String → Bool) :
    List (String × String) :=
  let measuredFiles := sortBy strLtB (data.map Prod.fst)
  let containerFiles := measuredFiles.filter fun p => !existsF p
  if containerFiles = [] then []
  else
    let groups := groupNominations (nominationsOf containerFiles localFiles)
    match sortBy groupBefore groups with
    | [] => []
    | (bestRoot, ms) :: _ =>
      match ms with
      | [] => []
      | firstMatch :: _ =>
        match localRootOf firstMatch with
        | none => []
        | some lr => [(bestRoot, lr)]

/-- The mapping-application loop of `_remapCoveragePaths`: the first
mapping whose container root is a prefix of the path rewrites it
(`replace` of a guaranteed-prefix occurrence), then `break`. -/
def applyMappings (mappings : List (String × String)) (p : String) : String :=
  match mappings.find? (fun m => strHasPre p m.1) with
  | some m => m.2 ++ String.mk (p.data.drop m.1.data.length)
  | none => p

/-- The fixed exclusion test of `_remapCoveragePaths` (instrumentation and
infrastructure files are skipped before any mapping is tried). -/
def excludedJS (p : String) : Bool :=
  containsSub p "coverage_server" || containsSub p "node_modules" ||
    containsSub p "/server/" || containsSub p "/client/" || containsSub p "/test/"

/-- The per-entry body of the `_remapCoveragePaths` loop, given the
detected mappings: skip excluded paths, rewrite the key, keep the entry
only if the rewritten path exists locally, and rewrite a truthy `path`
property of the cloned value the same way. -/
def remapStep (mappings : List (String × String)) (existsF : String → Bool)
    (acc : List (String × JSVal)) (e : String × JSVal) : List (String × JSVal) :=
  if excludedJS e.1 then acc
  else
    let np := applyMappings mappings e.1
    if existsF np then
      let d := e.2
      let d :=
        if jsTruthy d.pathField then
          { d with pathField := d.pathField.map (applyMappings mappings) }
        else d
      mapInsert acc np d
    else acc

/-- The entry loop of `_remapCoveragePaths`, given the detected mappings. -/
def remapEntriesWith (mappings : List (String × String)) (data : List (String × JSVal))
    (existsF : String → Bool) : List (String × JSVal) :=
  data.foldl (remapStep mappings existsF) []

/-- `_remapCoveragePaths` from coverage_client.js: detect the mappings once
from the whole payload, then rewrite every entry with them. -/
def remapCoveragePaths (data : List (String × JSVal))
    (localFiles : List (String × String)) (existsF : String → Bool) :
    List (String × JSVal) :=
  remapEntriesWith (detectContainerPaths data localFiles existsF) data existsF

/-! ## Lemmas about string scanning -/

theorem firstIdxOf_eq_none {l : List Char} {c : Char} :
    firstIdxOf l c = none ↔ c ∉ l := by
  induction l with
  | nil => simp [firstIdxOf]
  | cons x xs ih =>
    by_cases hx : x = c
    · simp [firstIdxOf, hx]
    · simp [firstIdxOf, hx, Option.map_eq_none', ih, Ne.symm hx]

theorem firstIdxOf_lt_of_not_mem_drop {l : List Char} {c : Char} {i n : Nat}
    (h : firstIdxOf l c = some i) (hn : c ∉ l.drop n) : i < n := by
  induction l generalizing i n with
  | nil => simp [firstIdxOf] at h
  | cons x xs ih =>
    by_cases hx : x = c
    · subst hx
      simp [firstIdxOf] at h
      subst h
      rcases n with _ | m
      · simp at hn
      · exact Nat.succ_pos m
    · simp [firstIdxOf, hx] at h
      rcases h with ⟨j, hj, rfl⟩
      rcases n with _ | m
      · exact absurd (List.mem_of_mem_drop (n := 0) (by
          have := firstIdxOf_eq_none (l := xs) (c := c)
          by_cases hc : c ∈ xs
          · simpa using List.mem_cons_of_mem x hc
          · simp [this.mpr hc] at hj)) hn
      · have : c ∉ xs.drop m := by simpa using hn
        exact Nat.succ_lt_succ (ih hj this)

theorem firstIdxOf_take {l : List Char} {c : Char} {i n : Nat}
    (h : firstIdxOf l c = some i) (hn : i < n) :
    firstIdxOf (l.take n) c = some i := by
  induction l generalizing i n with
  | nil => simp [firstIdxOf] at h
  | cons x xs ih =>
    rcases n with _ | m
    · exact absurd hn (by omega)
    · by_cases hx : x = c
      · subst hx
        simp [firstIdxOf] at h
        subst h
        simp [List.take, firstIdxOf]
      · simp [firstIdxOf, hx] at h
        rcases h with ⟨j, hj, rfl⟩
        have hm : j < m := by omega
        simp [List.take, firstIdxOf, hx, ih hj hm]

theorem contains_eq_false_of_not_mem {l : List Char} {c : Char} (h : c ∉ l) :
    l.contains c = false := by
  simpa using h

/-! ## C8 theorems: image-reference normalization -/

/-- C8: `normalizeImageRef` maps `quay.io/org/app:v1`,
`quay.io/org/app@sha256:abc` and `quay.io/org/app` all to
`quay.io/org/app`; in general a reference carrying a digest is truncated at
the first `@`, and a reference without any `@` carrying a `:tag` is
truncated at the last `:`. -/
theorem c8_normalize_image_ref :
    normalizeImageRef "quay.io/org/app:v1" = "quay.io/org/app" ∧
    normalizeImageRef "quay.io/org/app@sha256:abc" = "quay.io/org/app" ∧
    normalizeImageRef "quay.io/org/app" = "quay.io/org/app" ∧
    (∀ (l : List Char) (i : Nat), firstIdxOf l '@' = some i →
      normalizeImageRefL l = l.take i) ∧
    (∀ (l : List Char) (i : Nat), '@' ∉ l → lastIdxOf l ':' = some i →
      normalizeImageRefL l = l.take i) := by
  refine ⟨by decide, by decide, by decide, ?_, ?_⟩
  · intro l i h
    unfold normalizeImageRefL
    rcases hlast : lastIdxOf l ':' with _ | idx
    · simp [h]
    · by_cases hat : '@' ∈ l.drop idx
      · simp [hat, h]
      · have hi : i < idx := firstIdxOf_lt_of_not_mem_drop h hat
        have htake : firstIdxOf (l.take idx) '@' = some i := firstIdxOf_take h hi
        simp [hat, htake, List.take_take, Nat.min_eq_left (Nat.le_of_lt hi)]
  · intro l i hmem h
    unfold normalizeImageRefL
    have hdrop : '@' ∉ l.drop i := fun hm => hmem (List.mem_of_mem_drop hm)
    have htakemem : '@' ∉ l.take i := fun hm => hmem (List.mem_of_mem_take hm)
    simp [h, hdrop, firstIdxOf_eq_none.mpr htakemem]

/-- C8 witness: the digest clause at `a@b` (first `@` at index 1) and the
tag clause at `a:b` (last `:` at index 1). -/
theorem c8_normalize_image_ref_witness :
    normalizeImageRefL "a@b".data = "a@b".data.take 1 ∧
    normalizeImageRefL "a:b".data = "a:b".data.take 1 :=
  ⟨c8_normalize_image_ref.2.2.2.1 "a@b".data 1 (by decide),
   c8_normalize_image_ref.2.2.2.2 "a:b".data 1 (by decide) (by decide)⟩

/-! ## C5 theorems: system-namespace deny list -/

/-- C5 counterexample: `default-web` is neither one of the deny-list names
nor an `openshift*` namespace, yet `isSystemNamespace` excludes it (every
deny-list entry is prefix-matched), so with no namespace given,
`DiscoverPodsByImages` would not search it. -/
theorem c5_counterexample :
    isSystemNamespace "default-web" = true ∧
    ("default-web" ∉ ["kube-system", "kube-public", "kube-node-lease", "default"]) ∧
    strHasPre "default-web" "openshift" = false ∧
    namespacesToSearch ["default-web"] "" = [] := by
  refine ⟨by decide, by decide, by decide, by decide⟩

theorem prefix_absorb {ns p q : String} (hpq : p.data <+: q.data)
    (h : strHasPre ns q = true) : strHasPre ns p = true := by
  have hq : q.data <+: ns.data := by
    simpa [strHasPre, List.isPrefixOf_iff_prefix] using h
  simpa [strHasPre, List.isPrefixOf_iff_prefix] using hpq.trans hq

/-- C5 amended: with no namespace given, a namespace is excluded from the
search if and only if one of `kube-system`, `kube-public`,
`kube-node-lease`, `openshift`, `default` is a *prefix* of its name — every
deny-list entry is prefix-matched, not only the `openshift*` ones. -/
theorem c5_system_namespaces_amended :
    (∀ ns : String, isSystemNamespace ns = true ↔
      (strHasPre ns "kube-system" = true ∨ strHasPre ns "kube-public" = true ∨
        strHasPre ns "kube-node-lease" = true ∨ strHasPre ns "openshift" = true ∨
        strHasPre ns "default" = true)) ∧
    (∀ allNamespaces : List String, namespacesToSearch allNamespaces "" =
      allNamespaces.filter fun ns => !isSystemNamespace ns) := by
  constructor
  · intro ns
    have h1 : trimDotStar "kube-system" = "kube-system" := by decide
    have h2 : trimDotStar "kube-public" = "kube-public" := by decide
    have h3 : trimDotStar "kube-node-lease" = "kube-node-lease" := by decide
    have h4 : trimDotStar "openshift" = "openshift" := by decide
    have h5 : trimDotStar "openshift-.*" = "openshift-" := by decide
    have h6 : trimDotStar "default" = "default" := by decide
    constructor
    · intro h
      simp only [isSystemNamespace, systemNamespaceList, List.any_cons, List.any_nil,
        Bool.or_eq_true, Bool.or_false, h1, h2, h3, h4, h5, h6] at h
      rcases h with h | h | h | h | h | h
      · exact Or.inl h
      · exact Or.inr (Or.inl h)
      · exact Or.inr (Or.inr (Or.inl h))
      · exact Or.inr (Or.inr (Or.inr (Or.inl h)))
      · exact Or.inr (Or.inr (Or.inr (Or.inl (prefix_absorb (by decide) h))))
      · exact Or.inr (Or.inr (Or.inr (Or.inr h)))
    · intro h
      simp only [isSystemNamespace, systemNamespaceList, List.any_cons, List.any_nil,
        Bool.or_eq_true, Bool.or_false, h1, h2, h3, h4, h5, h6]
      rcases h with h | h | h | h | h
      · exact Or.inl h
      · exact Or.inr (Or.inl h)
      · exact Or.inr (Or.inr (Or.inl h))
      · exact Or.inr (Or.inr (Or.inr (Or.inl h)))
      · exact Or.inr (Or.inr (Or.inr (Or.inr (Or.inr h))))
  · intro allNamespaces
    simp [namespacesToSearch]

/-! ## C2 theorems: snapshot component names -/

theorem mem_mapInsert {κ α : Type} [DecidableEq κ] {m : List (κ × α)} {k : κ} {v : α}
    {e : κ × α} (h : e ∈ mapInsert m k v) : e ∈ m ∨ e = (k, v) := by
  induction m with
  | nil =>
    simp [mapInsert] at h
    exact Or.inr h
  | cons hd tl ih =>
    obtain ⟨k', v'⟩ := hd
    by_cases hk : k' = k
    · simp [mapInsert, hk] at h
      rcases h with h | h
      · exact Or.inr (by simp [h])
      · exact Or.inl (List.mem_cons_of_mem _ h)
    · simp [mapInsert, hk] at h
      rcases h with h | h
      · exact Or.inl (by simp [h])
      · rcases ih h with h' | h'
        · exact Or.inl (List.mem_cons_of_mem _ h')
        · exact Or.inr h'

theorem buildImageSet_val_mem :
    ∀ (images : List String) (m0 : List (String × String)) (e : String × String),
      e ∈ images.foldl (fun m img => mapInsert m (normalizeImageRef img) img) m0 →
      e.2 ∈ images ∨ e ∈ m0 := by
  intro images
  induction images with
  | nil =>
    intro m0 e h
    exact Or.inr (by simpa using h)
  | cons img rest ih =>
    intro m0 e h
    rcases ih (mapInsert m0 (normalizeImageRef img) img) e (by simpa using h) with h' | h'
    · exact Or.inl (List.mem_cons_of_mem _ h')
    · rcases mem_mapInsert h' with h'' | h''
      · exact Or.inr h''
      · exact Or.inl (by simp [h''])

/-- C2 counterexample: a snapshot declaring component name `frontend` for
image `quay.io/org/app:v1`, resolved against a running pod carrying label
`app: web` with that image, yields a resolved target whose `componentName`
is the label-derived `web`, not the declared `frontend`. -/
theorem c2_counterexample :
    (discoverPodsFromSnapshot
        ⟨["ns"], [⟨"p", "ns", "Running", [("app", "web")], [⟨"c", "quay.io/org/app:v1"⟩]⟩]⟩
        ⟨[⟨"frontend", "quay.io/org/app:v1"⟩]⟩ "ns").map (fun pi => pi.componentName) =
      ["web"] ∧ ("web" : String) ≠ "frontend" := by
  refine ⟨by decide, by decide⟩

/-- C2 amended: for snapshot discovery the snapshot contributes only its
image list; every resolved target's `componentName` is derived from the
matched pod's labels (or the image basename) by `extractComponentName`,
exactly as in the plain by-image path — the declared snapshot names are not
preserved. -/
theorem c2_snapshot_names_amended :
    ∀ (cluster : Cluster) (snap : Snapshot) (targetNs : String) (pi : PodInfo),
      pi ∈ discoverPodsFromSnapshot cluster snap targetNs →
      ∃ pod, pod ∈ cluster.pods ∧ pod.phase = "Running" ∧
        pi.componentName = extractComponentName pod.labels pi.image ∧
        pi.image ∈ snap.GetImages := by
  intro cluster snap targetNs pi h
  simp only [discoverPodsFromSnapshot, DiscoverPodsByImages, List.mem_flatMap] at h
  obtain ⟨ns, _, pod, hpod, hmatch⟩ := h
  rw [List.mem_filter] at hpod
  obtain ⟨hpodmem, hcond⟩ := hpod
  have hrun : pod.phase = "Running" := by
    have := ((Bool.and_eq_true _ _).mp hcond).2
    exact beq_iff_eq.mp this
  simp only [podMatches, List.mem_filterMap] at hmatch
  obtain ⟨container, _, hsome⟩ := hmatch
  rw [Option.map_eq_some'] at hsome
  obtain ⟨e, hfind, rfl⟩ := hsome
  refine ⟨pod, hpodmem, hrun, rfl, ?_⟩
  have hmem : e ∈ buildImageSet snap.GetImages := List.mem_of_find?_eq_some hfind
  rcases buildImageSet_val_mem snap.GetImages [] e hmem with h' | h'
  · exact h'
  · simp at h'

/-- C2 amended witness: the single-pod cluster of the counterexample. -/
theorem c2_snapshot_names_amended_witness :
    ∃ pod, pod ∈ ([⟨"p", "ns", "Running", [("app", "web")], [⟨"c", "quay.io/org/app:v1"⟩]⟩] :
        List Pod) ∧ pod.phase = "Running" ∧
      (⟨"p", "ns", "web", "quay.io/org/app:v1", "c"⟩ : PodInfo).componentName =
        extractComponentName pod.labels
          (⟨"p", "ns", "web", "quay.io/org/app:v1", "c"⟩ : PodInfo).image ∧
      (⟨"p", "ns", "web", "quay.io/org/app:v1", "c"⟩ : PodInfo).image ∈
        Snapshot.GetImages ⟨[⟨"frontend", "quay.io/org/app:v1"⟩]⟩ :=
  c2_snapshot_names_amended
    ⟨["ns"], [⟨"p", "ns", "Running", [("app", "web")], [⟨"c", "quay.io/org/app:v1"⟩]⟩]⟩
    ⟨[⟨"frontend", "quay.io/org/app:v1"⟩]⟩ "ns"
    ⟨"p", "ns", "web", "quay.io/org/app:v1", "c"⟩ (by decide)

/-! ## C1 theorems: the collection loop, manifest persistence, hard failure -/

theorem collectLoop_foldl (collect : PodInfo → Option ComponentInfo) :
    ∀ (targets : List PodInfo) (n : Nat) (m : CollectionManifest),
      targets.foldl
          (fun acc t =>
            match collect t with
            | some ci => (acc.1 + 1, AddComponent acc.2 ci)
            | none => acc)
          (n, m) =
        (n + (targets.filterMap collect).length,
          { m with components := m.components ++ targets.filterMap collect }) := by
  intro targets
  induction targets with
  | nil => intro n m; simp
  | cons t ts ih =>
    intro n m
    rcases hc : collect t with _ | ci
    · simpa [List.filterMap_cons, hc] using ih n m
    · simp only [List.foldl_cons, hc, ih (n + 1) (AddComponent m ci),
        List.filterMap_cons]
      refine congrArg₂ Prod.mk (by simp; omega) ?_
      simp [AddComponent]

/-- C1 counterexample: a run over one discovered target whose collection
fails ends in a hard failure — `exitWithError` fires *before*
`collectionManifest.Save` — so the manifest is persisted zero times, not
once, although all targets have been attempted. -/
theorem c1_counterexample :
    (runCollect "t" "now" ⟨9095, ["coverage_server.go"], "go", ""⟩
        [⟨"p", "ns", "web", "img", "c"⟩] (fun _ => none)).hardFailure = true ∧
    (runCollect "t" "now" ⟨9095, ["coverage_server.go"], "go", ""⟩
        [⟨"p", "ns", "web", "img", "c"⟩] (fun _ => none)).manifestSaves = 0 := by
  refine ⟨by decide, by decide⟩

/-- C1 amended: a failed target never aborts the loop; the manifest ends up
with exactly one `ComponentRecord` per succeeded target, in order, and none
for failed targets; the run is a hard failure iff zero targets succeeded;
and the manifest is persisted exactly once after the full pass *when at
least one target succeeded* — on zero successes the run exits before
persisting, so the save count is zero. -/
theorem c1_collect_run_amended :
    ∀ (testName now : String) (params : CollectionParameters) (targets : List PodInfo)
      (collect : PodInfo → Option ComponentInfo),
      (runCollect testName now params targets collect).manifest.components =
        targets.filterMap collect ∧
      (runCollect testName now params targets collect).successCount =
        (targets.filterMap collect).length ∧
      ((runCollect testName now params targets collect).hardFailure = true ↔
        (runCollect testName now params targets collect).successCount = 0) ∧
      (runCollect testName now params targets collect).manifestSaves =
        (if (runCollect testName now params targets collect).successCount = 0 then 0 else 1) := by
  intro testName now params targets collect
  have hloop := collectLoop_foldl collect targets 0 (NewCollectionManifest testName now params)
  simp only [runCollect, collectLoop, hloop]
  by_cases hz : (targets.filterMap collect).length = 0
  · have hnil : targets.filterMap collect = [] := List.length_eq_zero.mp hz
    simp [NewCollectionManifest, hnil]
  · simp [NewCollectionManifest, hz]

/-! ## C6 theorems: DA lines take the maximum hit count per start line -/

/-- The hit counts of the statements whose span starts on line `l` and that
carry an entry in the `s` hit-count map, in statement-map order. -/
def lineStartCounts (sm : List (String × NYCLocation)) (s : List (String × Int))
    (l : Int) : List Int :=
  sm.filterMap fun e => if e.2.start.line = l then assocLookup s e.1 else none

/-- Maximum of a list of integers, `none` when empty. -/
def maxOf? : List Int → Option Int
  | [] => none
  | c :: cs => some (cs.foldl max c)

/-- Combine an already-recorded line hit with the maximum of later
contributions. -/
def combineMax : Option Int → Option Int → Option Int
  | none, r => r
  | some a, none => some a
  | some a, some b => some (max a b)

theorem assocLookup_updateLineHits (m : List (Int × Int)) (line count l : Int) :
    assocLookup (updateLineHits m line count) l =
      if l = line then
        (match assocLookup m l with
          | some e => some (max e count)
          | none => some count)
      else assocLookup m l := by
  induction m with
  | nil =>
    by_cases h : l = line
    · subst h
      simp [updateLineHits, assocLookup]
    · have h' : line ≠ l := fun hh => h hh.symm
      simp [updateLineHits, assocLookup, h, h']
  | cons hd tl ih =>
    obtain ⟨l0, e0⟩ := hd
    by_cases h0 : l0 = line
    · subst h0
      by_cases h : l = l0
      · subst h
        rcases lt_or_le e0 count with hlt | hle
        · simp [updateLineHits, assocLookup, hlt, max_eq_right (le_of_lt hlt)]
        · simp [updateLineHits, assocLookup, not_lt.mpr hle, max_eq_left hle]
      · have h' : l0 ≠ l := fun hh => h hh.symm
        rcases lt_or_le e0 count with hlt | hle
        · simp [updateLineHits, assocLookup, hlt, h, h']
        · simp [updateLineHits, assocLookup, not_lt.mpr hle, h, h']
    · by_cases h : l0 = l
      · have h1 : ¬l = line := fun hh => h0 (h.trans hh)
        simp [updateLineHits, assocLookup, h0, h, h1]
      · simp [updateLineHits, assocLookup, h0, h, ih]

theorem foldl_max_comm (cs : List Int) : ∀ a c : Int,
    max a (cs.foldl max c) = cs.foldl max (max a c) := by
  induction cs with
  | nil => intro a c; simp
  | cons c' cs ih =>
    intro a c
    simp only [List.foldl_cons]
    rw [ih a (max c c'), max_assoc]

theorem combineMax_some (a : Int) (cs : List Int) :
    combineMax (some a) (maxOf? cs) = some (cs.foldl max a) := by
  rcases cs with _ | ⟨c, cs⟩
  · simp [maxOf?, combineMax]
  · simp [maxOf?, combineMax, List.foldl_cons, foldl_max_comm cs a c]

theorem lineHitsAux_spec (s : List (String × Int)) (l : Int) :
    ∀ (sm : List (String × NYCLocation)) (acc : List (Int × Int)),
      assocLookup (lineHitsAux s sm acc) l =
        combineMax (assocLookup acc l) (maxOf? (lineStartCounts sm s l)) := by
  intro sm
  induction sm with
  | nil =>
    intro acc
    rcases h : assocLookup acc l with _ | a <;>
      simp [lineHitsAux, lineStartCounts, maxOf?, combineMax, h]
  | cons hd rest ih =>
    intro acc
    obtain ⟨stmtID, loc⟩ := hd
    rcases hs : assocLookup s stmtID with _ | count
    · have hhead : lineStartCounts ((stmtID, loc) :: rest) s l = lineStartCounts rest s l := by
        simp [lineStartCounts, List.filterMap_cons, hs]
      simp [lineHitsAux, hs, hhead, ih]
    · by_cases hline : loc.start.line = l
      · have hhead : lineStartCounts ((stmtID, loc) :: rest) s l =
            count :: lineStartCounts rest s l := by
          simp [lineStartCounts, List.filterMap_cons, hs, hline]
        rw [hhead]
        simp only [lineHitsAux, hs, ih]
        rw [assocLookup_updateLineHits, hline, if_pos rfl]
        rcases hacc : assocLookup acc l with _ | e
        · rw [combineMax_some]
          show _ = combineMax none (maxOf? (count :: lineStartCounts rest s l))
          simp [combineMax, maxOf?]
        · rw [combineMax_some, combineMax_some, List.foldl_cons]
      · have hhead : lineStartCounts ((stmtID, loc) :: rest) s l = lineStartCounts rest s l := by
          simp [lineStartCounts, List.filterMap_cons, hs, hline]
        simp only [lineHitsAux, hs, ih, hhead]
        rw [assocLookup_updateLineHits, if_neg (fun hh => hline hh.symm)]

/-- C6: for every file of a statement/branch payload and every source line,
the `DA` entry that `generateLCOV` derives for that line is the *maximum*
hit count among the statements whose span starts on that line (statements
without an `s` entry are skipped) — not their sum; in particular two
statement spans both starting on line 10 with counts 3 and 7 yield
`DA:10,7`. -/
theorem c6_da_line_max :
    (∀ (fc : NYCFileCoverage) (l : Int),
      assocLookup (lineHits fc) l = maxOf? (lineStartCounts fc.statementMap fc.s l)) ∧
    assocLookup
        (lineHits
          ⟨"f.js", [("0", ⟨⟨10, 0⟩, ⟨10, 5⟩⟩), ("1", ⟨⟨10, 2⟩, ⟨12, 1⟩⟩)], [], [],
            [("0", 3), ("1", 7)], [], []⟩)
        10 = some 7 := by
  constructor
  · intro fc l
    have h := lineHitsAux_spec fc.s l fc.statementMap []
    simpa [lineHits, assocLookup, combineMax] using h
  · decide

/-! ## C4 theorem: BRDA counts are looked up under the synthetic id -/

/-- C4: evaluating the branch loop of `generateLCOV` at a payload whose
single branch has map key `"5"` with hit counts `[7]`. The loop looks the
counts up under the synthetic sequential id (`B[fmt.Sprintf("%d",
branchID)]`, here `"0"`) instead of the branch's own key, so the emitted
`BRDA` line carries 0 although the payload records 7 hits for that
alternative. -/
theorem c4_brda_synthetic_id_bug :
    brdaLines
        ⟨"f.js", [], [], [("5", ⟨"if", [⟨⟨1, 0⟩, ⟨1, 5⟩⟩], 1⟩)], [], [], [("5", [7])]⟩ =
      [⟨1, 0, 0, 0⟩] ∧
    assocLookup ([("5", [7])] : List (String × List Int)) "5" = some [7] := by
  refine ⟨by decide, by decide⟩

/-! ## C10 theorems: `remapNYCPaths` changes only keys and `Path` fields -/

theorem mapInsert_of_not_mem {κ α : Type} [DecidableEq κ] {m : List (κ × α)} {k : κ}
    (v : α) (h : k ∉ m.map Prod.fst) : mapInsert m k v = m ++ [(k, v)] := by
  induction m with
  | nil => simp [mapInsert]
  | cons hd tl ih =>
    obtain ⟨k', v'⟩ := hd
    simp only [List.map_cons, List.mem_cons] at h
    push_neg at h
    have hne : k' ≠ k := fun hh => h.1 hh.symm
    simp [mapInsert, hne, ih h.2]

theorem foldl_mapInsert_rekey {α : Type} (rwk : String → String) (g : String × α → α) :
    ∀ (rows : List (String × α)) (acc : List (String × α)),
      (rows.map fun e => rwk e.1).Nodup →
      (∀ e ∈ rows, rwk e.1 ∉ acc.map Prod.fst) →
      rows.foldl (fun acc e => mapInsert acc (rwk e.1) (g e)) acc =
        acc ++ rows.map fun e => (rwk e.1, g e) := by
  intro rows
  induction rows with
  | nil => intro acc _ _; simp
  | cons e rest ih =>
    intro acc hnodup hfresh
    simp only [List.map_cons, List.nodup_cons] at hnodup
    have hfresh' : ∀ e' ∈ rest,
        rwk e'.1 ∉ ((acc ++ [(rwk e.1, g e)]).map Prod.fst) := by
      intro e' he'
      simp only [List.map_append, List.mem_append]
      push_neg
      refine ⟨hfresh e' (List.mem_cons_of_mem e he'), ?_⟩
      have hmem : rwk e'.1 ∈ rest.map fun x => rwk x.1 := List.mem_map_of_mem _ he'
      have hne : rwk e'.1 ≠ rwk e.1 := fun hh => hnodup.1 (hh ▸ hmem)
      simp [hne]
    simp only [List.foldl_cons, List.map_cons]
    rw [mapInsert_of_not_mem _ (hfresh e (List.mem_cons_self e rest)),
      ih (acc ++ [(rwk e.1, g e)]) hnodup.2 hfresh']
    simp

/-- C10: when no two input paths of an NYC coverage map are rewritten to
the same output path, `remapNYCPaths` changes only each entry's top-level
key and its `Path` field: the rebuilt map is exactly the input with every
entry re-keyed, it has as many entries as the input, and every entry keeps
its `statementMap`, `fnMap`, `branchMap` and hit-count maps `s`, `f`, `b`
unchanged. -/
theorem c10_remap_frame :
    ∀ (data : List (String × NYCFileCoverage)) (absRepoRoot : String),
      ((data.map fun e => remapNYCPath (detectNYCSourceRoot data) absRepoRoot e.1).Nodup) →
      remapNYCPaths data absRepoRoot =
        (data.map fun e =>
          (remapNYCPath (detectNYCSourceRoot data) absRepoRoot e.1,
            { e.2 with path := remapNYCPath (detectNYCSourceRoot data) absRepoRoot e.1 })) ∧
      (remapNYCPaths data absRepoRoot).length = data.length ∧
      ∀ e ∈ data, ∃ e' ∈ remapNYCPaths data absRepoRoot,
        e'.2.statementMap = e.2.statementMap ∧ e'.2.fnMap = e.2.fnMap ∧
        e'.2.branchMap = e.2.branchMap ∧ e'.2.s = e.2.s ∧ e'.2.f = e.2.f ∧
        e'.2.b = e.2.b ∧
        e'.1 = remapNYCPath (detectNYCSourceRoot data) absRepoRoot e.1 ∧ e'.2.path = e'.1 := by
  intro data absRepoRoot hnodup
  have heq : remapNYCPaths data absRepoRoot =
      (data.map fun e =>
        (remapNYCPath (detectNYCSourceRoot data) absRepoRoot e.1,
          { e.2 with path := remapNYCPath (detectNYCSourceRoot data) absRepoRoot e.1 })) := by
    have h := foldl_mapInsert_rekey
      (remapNYCPath (detectNYCSourceRoot data) absRepoRoot)
      (fun e => { e.2 with path := remapNYCPath (detectNYCSourceRoot data) absRepoRoot e.1 })
      data [] hnodup (by simp)
    simpa [remapNYCPaths] using h
  refine ⟨heq, by simp [heq], ?_⟩
  intro e he
  refine ⟨(remapNYCPath (detectNYCSourceRoot data) absRepoRoot e.1,
    { e.2 with path := remapNYCPath (detectNYCSourceRoot data) absRepoRoot e.1 }), ?_, by simp⟩
  rw [heq]
  exact List.mem_map_of_mem _ he

/-- C10 witness: a one-entry coverage map under repo root `/repo`; the
detected source root `/app/` is stripped and only the key and `Path` field
change. -/
theorem c10_remap_frame_witness :
    remapNYCPaths [("/app/x.js", ⟨"/app/x.js", [("0", ⟨⟨1, 0⟩, ⟨1, 2⟩⟩)], [], [],
        [("0", 3)], [], []⟩)] "/repo" =
      [("/repo/x.js", ⟨"/repo/x.js", [("0", ⟨⟨1, 0⟩, ⟨1, 2⟩⟩)], [], [], [("0", 3)], [], []⟩)] := by
  have h := (c10_remap_frame
    [("/app/x.js", ⟨"/app/x.js", [("0", ⟨⟨1, 0⟩, ⟨1, 2⟩⟩)], [], [], [("0", 3)], [], []⟩)]
    "/repo" (by decide)).1
  rw [h]
  decide

/-! ## C9 theorems: exclusion filtering wins over path mappings -/

theorem remapEntriesWith_key_origin (mappings : List (String × String))
    (existsF : String → Bool) (P : String → Prop) :
    ∀ (rows : List (String × JSVal)) (acc : List (String × JSVal)),
      (∀ e ∈ rows, excludedJS e.1 = false → existsF (applyMappings mappings e.1) = true →
        P (applyMappings mappings e.1)) →
      (∀ k ∈ acc.map Prod.fst, P k) →
      ∀ k ∈ (rows.foldl (remapStep mappings existsF) acc).map Prod.fst, P k := by
  intro rows
  induction rows with
  | nil => intro acc _ hacc k hk; exact hacc k (by simpa using hk)
  | cons e rest ih =>
    intro acc hrows hacc k hk
    by_cases hex : excludedJS e.1 = true
    · refine ih acc (fun e' he' hh1 hh2 => hrows e' (List.mem_cons_of_mem _ he') hh1 hh2)
        hacc k ?_
      simpa [List.foldl_cons, remapStep, hex] using hk
    · have hex' : excludedJS e.1 = false := by simpa using hex
      by_cases hef : existsF (applyMappings mappings e.1) = true
      · refine ih
          (mapInsert acc (applyMappings mappings e.1)
            (if jsTruthy e.2.pathField then
              { e.2 with pathField := e.2.pathField.map (applyMappings mappings) }
            else e.2))
          (fun e' he' hh1 hh2 => hrows e' (List.mem_cons_of_mem _ he') hh1 hh2) ?_ k ?_
        · intro k' hk'
          obtain ⟨ent, hent, hfst⟩ := List.mem_map.mp hk'
          rcases mem_mapInsert hent with h' | h'
          · exact hacc _ (hfst ▸ List.mem_map_of_mem _ h')
          · have : k' = applyMappings mappings e.1 := by rw [← hfst, h']
            rw [this]
            exact hrows e (List.mem_cons_self e rest) hex' hef
        · simpa [List.foldl_cons, remapStep, hex', hef] using hk
      · have hef' : existsF (applyMappings mappings e.1) = false := by simpa using hef
        refine ih acc (fun e' he' hh1 hh2 => hrows e' (List.mem_cons_of_mem _ he') hh1 hh2)
          hacc k ?_
        simpa [List.foldl_cons, remapStep, hex', hef'] using hk

/-- C9: (Go) every line kept by `applyFilters` either is a `mode:` header
or contains none of the configured filter strings, so a coverage line whose
file path contains a filter substring never survives; (JS) every entry of
the `_remapCoveragePaths` output originates from a payload entry whose
*observed* path passes the exclusion test — an excluded path contributes
nothing to the output even if a path mapping applies to it. -/
theorem c9_exclusion_filtering :
    (∀ (filters : List String) (lines : List String) (line : String),
      line ∈ applyFilterLines filters lines → strHasPre line "mode:" = false →
      ∀ f ∈ filters, containsSub line f = false) ∧
    (∀ (data : List (String × JSVal)) (localFiles : List (String × String))
        (existsF : String → Bool) (k : String),
      k ∈ (remapCoveragePaths data localFiles existsF).map Prod.fst →
      ∃ e ∈ data, excludedJS e.1 = false ∧
        k = applyMappings (detectContainerPaths data localFiles existsF) e.1) := by
  constructor
  · intro filters lines line hmem hmode f hf
    have hpred := (List.mem_filter.mp hmem).2
    have hany : (filters.any fun f => containsSub line f) = false := by
      simpa [hmode] using hpred
    by_contra hc
    have hc' : containsSub line f = true := by simpa using hc
    have : (filters.any fun f => containsSub line f) = true :=
      List.any_eq_true.mpr ⟨f, hf, hc'⟩
    simp [this] at hany
  · intro data localFiles existsF k hk
    have h := remapEntriesWith_key_origin (detectContainerPaths data localFiles existsF)
      existsF
      (fun k => ∃ e ∈ data, excludedJS e.1 = false ∧
        k = applyMappings (detectContainerPaths data localFiles existsF) e.1)
      data [] (fun e he hh1 _ => ⟨e, he, hh1, rfl⟩) (by simp) k
    apply h
    simpa [remapCoveragePaths, remapEntriesWith] using hk

/-- C9 witness: the Go filter drops the `coverage_server.go` line and keeps
`pkg/a.go`, and the JS remap output of a one-file payload originates from
its non-excluded observed path. -/
theorem c9_exclusion_filtering_witness :
    containsSub "pkg/a.go:1.1,2.2 1 3" "coverage_server.go" = false ∧
    ∃ e ∈ [("/app/src/foo.js", (⟨some "/app/src/foo.js", ""⟩ : JSVal))],
      excludedJS e.1 = false ∧
      "/local/src/foo.js" = applyMappings
        (detectContainerPaths [("/app/src/foo.js", ⟨some "/app/src/foo.js", ""⟩)]
          [("src/foo.js", "/local/src/foo.js")] (fun p => strHasPre p "/local")) e.1 :=
  ⟨c9_exclusion_filtering.1 ["coverage_server.go"]
      ["mode: set", "pkg/a.go:1.1,2.2 1 3", "pkg/coverage_server.go:1.1,2.2 1 3"]
      "pkg/a.go:1.1,2.2 1 3" (by decide) (by decide) "coverage_server.go" (by decide),
   c9_exclusion_filtering.2 [("/app/src/foo.js", ⟨some "/app/src/foo.js", ""⟩)]
      [("src/foo.js", "/local/src/foo.js")] (fun p => strHasPre p "/local")
      "/local/src/foo.js" (by decide)⟩

/-! ## C7 theorems: reconciliation with no unresolved paths -/

theorem applyMappings_nil (p : String) : applyMappings [] p = p := rfl

theorem remapVal_nil (d : JSVal) :
    (if jsTruthy d.pathField then
      { d with pathField := d.pathField.map (applyMappings []) }
    else d) = d := by
  rcases d with ⟨pf, rest⟩
  rcases pf with _ | p
  · simp [jsTruthy]
  · by_cases hp : p = "" <;> simp [jsTruthy, hp, applyMappings_nil]

theorem mem_insertBy {α : Type} (lt : α → α → Bool) (a x : α) (l : List α) :
    x ∈ insertBy lt a l ↔ x = a ∨ x ∈ l := by
  induction l with
  | nil => simp [insertBy]
  | cons y ys ih =>
    by_cases h : lt a y
    · simp [insertBy, h]
    · simp [insertBy, h, ih]
      tauto

theorem mem_sortBy {α : Type} (lt : α → α → Bool) (x : α) (l : List α) :
    x ∈ sortBy lt l ↔ x ∈ l := by
  induction l with
  | nil => simp [sortBy]
  | cons y ys ih => simp [sortBy, mem_insertBy, ih]

theorem remapEntries_nil_mappings (existsF : String → Bool) :
    ∀ (rows : List (String × JSVal)) (acc : List (String × JSVal)),
      (∀ p ∈ rows.map Prod.fst, existsF p = true) →
      (rows.map Prod.fst).Nodup →
      (∀ e ∈ rows, e.1 ∉ acc.map Prod.fst) →
      rows.foldl (remapStep [] existsF) acc =
        acc ++ rows.filter fun e => !excludedJS e.1 := by
  intro rows
  induction rows with
  | nil => intro acc _ _ _; simp
  | cons e rest ih =>
    intro acc hall hnodup hfresh
    simp only [List.map_cons, List.nodup_cons] at hnodup
    have hall' : ∀ p ∈ rest.map Prod.fst, existsF p = true :=
      fun p hp => hall p (List.mem_cons_of_mem _ hp)
    by_cases hex : excludedJS e.1 = true
    · have hrec := ih acc hall' hnodup.2 fun e' he' => hfresh e' (List.mem_cons_of_mem _ he')
      have hd : remapStep [] existsF acc e = acc := by simp [remapStep, hex]
      rw [List.foldl_cons, hd, hrec, List.filter_cons]
      simp [hex]
    · have hex' : excludedJS e.1 = false := by simpa using hex
      have hef : existsF e.1 = true := hall e.1 (by simp)
      have hstep : mapInsert acc e.1 e.2 = acc ++ [(e.1, e.2)] :=
        mapInsert_of_not_mem _ (hfresh e (List.mem_cons_self e rest))
      have hd : remapStep [] existsF acc e = acc ++ [(e.1, e.2)] := by
        simp [remapStep, hex', applyMappings_nil, hef, remapVal_nil, hstep]
      have hfresh' : ∀ e' ∈ rest, e'.1 ∉ ((acc ++ [(e.1, e.2)]).map Prod.fst) := by
        intro e' he'
        simp only [List.map_append, List.mem_append]
        push_neg
        refine ⟨hfresh e' (List.mem_cons_of_mem _ he'), ?_⟩
        have hmem : e'.1 ∈ rest.map Prod.fst := List.mem_map_of_mem _ he'
        have hne : e'.1 ≠ e.1 := fun hh => hnodup.1 (hh ▸ hmem)
        simp [hne]
      have hrec := ih (acc ++ [(e.1, e.2)]) hall' hnodup.2 hfresh'
      rw [List.foldl_cons, hd, hrec, List.filter_cons]
      simp [hex']

/-- C7 counterexample: a payload whose single observed path
`/x/test/a.js` exists locally at that exact path. The detected mapping is
indeed empty, but the path does *not* pass through the remapping step: it
matches the built-in `/test/` exclusion substring, so the output is empty
and the entry is dropped. -/
theorem c7_counterexample :
    (fun q => q == "/x/test/a.js") "/x/test/a.js" = true ∧
    detectContainerPaths [("/x/test/a.js", ⟨some "/x/test/a.js", ""⟩)] []
        (fun q => q == "/x/test/a.js") = [] ∧
    remapCoveragePaths [("/x/test/a.js", ⟨some "/x/test/a.js", ""⟩)] []
        (fun q => q == "/x/test/a.js") = [] := by
  refine ⟨by decide, by decide, by decide⟩

/-- C7 amended: if every observed path of the payload (a JSON object, so
keys are distinct) exists locally at that exact path, path reconciliation
computes an empty mapping, and the remapping step passes through exactly
the entries whose path does not contain one of the built-in exclusion
substrings (`coverage_server`, `node_modules`, `/server/`, `/client/`,
`/test/`), each unchanged; entries matching an exclusion substring are
dropped. -/
theorem c7_no_unresolved_amended :
    ∀ (data : List (String × JSVal)) (localFiles : List (String × String))
      (existsF : String → Bool),
      (∀ p ∈ data.map Prod.fst, existsF p = true) →
      (data.map Prod.fst).Nodup →
      detectContainerPaths data localFiles existsF = [] ∧
      remapCoveragePaths data localFiles existsF = data.filter fun e => !excludedJS e.1 := by
  intro data localFiles existsF hall hnodup
  have hcf : ((sortBy strLtB (data.map Prod.fst)).filter fun p => !existsF p) = [] := by
    rw [List.filter_eq_nil_iff]
    intro p hp
    have : existsF p = true := hall p ((mem_sortBy strLtB p _).mp hp)
    simp [this]
  have hdet : detectContainerPaths data localFiles existsF = [] := by
    simp [detectContainerPaths, hcf]
  refine ⟨hdet, ?_⟩
  have h := remapEntries_nil_mappings existsF data [] hall hnodup (by simp)
  calc remapCoveragePaths data localFiles existsF
      = remapEntriesWith [] data existsF := by rw [remapCoveragePaths, hdet]
    _ = data.filter fun e => !excludedJS e.1 := by simpa [remapEntriesWith] using h

/-- C7 amended witness: a one-entry payload at an existing, non-excluded
path passes through unchanged with an empty mapping. -/
theorem c7_no_unresolved_amended_witness :
    detectContainerPaths [("/ok/a.js", ⟨some "/ok/a.js", ""⟩)] []
        (fun q => q == "/ok/a.js") = [] ∧
    remapCoveragePaths [("/ok/a.js", ⟨some "/ok/a.js", ""⟩)] []
        (fun q => q == "/ok/a.js") =
      ([("/ok/a.js", ⟨some "/ok/a.js", ""⟩)].filter fun e => !excludedJS e.1) :=
  c7_no_unresolved_amended [("/ok/a.js", ⟨some "/ok/a.js", ""⟩)] []
    (fun q => q == "/ok/a.js") (by decide) (by decide)

/-! ## C3 theorems: the reconciler picks one winning root group -/

theorem chLt_irrefl : ∀ l : List Char, chLt l l = false := by
  intro l
  induction l with
  | nil => rfl
  | cons a as ih => simp [chLt, lt_irrefl, ih]

theorem chLt_trans : ∀ a b c : List Char,
    chLt a b = true → chLt b c = true → chLt a c = true := by
  intro a
  induction a with
  | nil =>
    intro b c hab hbc
    cases b with
    | nil => simp [chLt] at hab
    | cons y ys =>
      cases c with
      | nil => simp [chLt] at hbc
      | cons z zs => simp [chLt]
  | cons x xs ih =>
    intro b c hab hbc
    cases b with
    | nil => simp [chLt] at hab
    | cons y ys =>
      cases c with
      | nil => simp [chLt] at hbc
      | cons z zs =>
        simp only [chLt] at hab hbc ⊢
        by_cases hxy : x < y
        · by_cases hyz : y < z
          · simp [lt_trans hxy hyz]
          · have hzy : ¬z < y := by
              intro hzy
              simp [hyz, hzy] at hbc
            have hyzeq : y = z := le_antisymm (not_lt.mp hzy) (not_lt.mp hyz)
            subst hyzeq
            simp [hxy]
        · have hyx : ¬y < x := by
            intro hyx
            simp [hxy, hyx] at hab
          have hxyeq : x = y := le_antisymm (not_lt.mp hyx) (not_lt.mp hxy)
          subst hxyeq
          have hab' : chLt xs ys = true := by simpa [lt_irrefl] using hab
          by_cases hxz : x < z
          · simp [hxz]
          · have hzx : ¬z < x := by
              intro hzx
              simp [hxz, hzx] at hbc
            have hbc' : chLt ys zs = true := by simpa [hxz, hzx] using hbc
            simp [hxz, hzx, ih ys zs hab' hbc']

theorem groupBefore_irrefl (a : String × List Nomination) : groupBefore a a = false := by
  simp [groupBefore, strLtB, chLt_irrefl]

theorem groupBefore_trans (a b c : String × List Nomination)
    (hab : groupBefore a b = true) (hbc : groupBefore b c = true) :
    groupBefore a c = true := by
  by_cases h1 : a.2.length = b.2.length
  · by_cases h2 : b.2.length = c.2.length
    · simp only [groupBefore, h1, h2, ne_eq, not_true_eq_false, if_false] at hab hbc ⊢
      exact chLt_trans _ _ _ hab hbc
    · have hlt : c.2.length < b.2.length := by
        simpa [groupBefore, h2] using hbc
      have hlt' : c.2.length < a.2.length := h1 ▸ hlt
      have hne : a.2.length ≠ c.2.length := by omega
      simp [groupBefore, hne, hlt']
  · have hlt1 : b.2.length < a.2.length := by
      simpa [groupBefore, h1] using hab
    by_cases h2 : b.2.length = c.2.length
    · have hlt' : c.2.length < a.2.length := h2 ▸ hlt1
      have hne : a.2.length ≠ c.2.length := by omega
      simp [groupBefore, hne, hlt']
    · have hlt2 : c.2.length < b.2.length := by
        simpa [groupBefore, h2] using hbc
      have hlt' : c.2.length < a.2.length := lt_trans hlt2 hlt1
      have hne : a.2.length ≠ c.2.length := by omega
      simp [groupBefore, hne, hlt']

theorem insertBy_ne_nil {α : Type} (lt : α → α → Bool) (a : α) (l : List α) :
    insertBy lt a l ≠ [] := by
  cases l with
  | nil => simp [insertBy]
  | cons y ys =>
    simp only [insertBy]
    split <;> simp

theorem sortBy_head_min {α : Type} (lt : α → α → Bool)
    (hirr : ∀ a, lt a a = false)
    (htrans : ∀ a b c, lt a b = true → lt b c = true → lt a c = true) :
    ∀ (l : List α) (m : α) (rest : List α), sortBy lt l = m :: rest →
      ∀ x ∈ l, lt x m = false := by
  intro l
  induction l with
  | nil => intro m rest h; simp [sortBy] at h
  | cons a l' ih =>
    intro m rest h x hx
    simp only [sortBy] at h
    rcases hs : sortBy lt l' with _ | ⟨m', rest'⟩
    · have hl' : l' = [] := by
        cases l' with
        | nil => rfl
        | cons b bs =>
          exact absurd hs (by simp only [sortBy]; exact insertBy_ne_nil lt b _)
      subst hl'
      simp only [sortBy, insertBy] at h
      obtain ⟨rfl, -⟩ := List.cons.injEq .. |>.mp h
      rcases List.mem_cons.mp hx with rfl | hx'
      · exact hirr x
      · simp at hx'
    · rw [hs] at h
      have hmin' := ih m' rest' hs
      by_cases hlt : lt a m' = true
      · rw [insertBy, if_pos hlt] at h
        obtain ⟨rfl, -⟩ := List.cons.injEq .. |>.mp h
        rcases List.mem_cons.mp hx with rfl | hx'
        · exact hirr x
        · by_contra hc
          have hc' : lt x a = true := by simpa using hc
          have hxm' := htrans x a m' hc' hlt
          rw [hmin' x hx'] at hxm'
          exact Bool.false_ne_true hxm'
      · rw [insertBy, if_neg hlt] at h
        obtain ⟨rfl, -⟩ := List.cons.injEq .. |>.mp h
        rcases List.mem_cons.mp hx with rfl | hx'
        · simpa using hlt
        · exact hmin' x hx'

/-- C3: whenever `_detectContainerPaths` returns a mapping `[(W, L)]`, that
mapping comes from the nomination groups as specified: `W` is the root of a
nomination group that no other group beats under the count-then-lexicographic
comparator (every other group is strictly smaller, or equal in size with `W`
lexicographically no larger), `L` is the local root built from the *first*
nomination of that winning group, a single-mapping rewrite is the plain
prefix substitution, and `_remapCoveragePaths` applies this one detected
mapping uniformly to every entry of the payload rather than recomputing a
mapping per file. -/
theorem c3_reconciler_winner :
    ∀ (data : List (String × JSVal)) (localFiles : List (String × String))
      (existsF : String → Bool) (W L : String),
      detectContainerPaths data localFiles existsF = [(W, L)] →
      ∃ ms : List Nomination,
        (W, ms) ∈ groupNominations (nominationsOf
            ((sortBy strLtB (data.map Prod.fst)).filter fun p => !existsF p) localFiles) ∧
        (∀ g ∈ groupNominations (nominationsOf
            ((sortBy strLtB (data.map Prod.fst)).filter fun p => !existsF p) localFiles),
          g.2.length < ms.length ∨ (g.2.length = ms.length ∧ strLtB g.1 W = false)) ∧
        (∃ firstNom rest, ms = firstNom :: rest ∧ localRootOf firstNom = some L) ∧
        (∀ p : String, applyMappings [(W, L)] p =
          if strHasPre p W then L ++ String.mk (p.data.drop W.data.length) else p) ∧
        remapCoveragePaths data localFiles existsF =
          data.foldl (remapStep [(W, L)] existsF) [] := by
  intro data localFiles existsF W L hdet
  have h := hdet
  simp only [detectContainerPaths] at h
  by_cases hempty :
      ((sortBy strLtB (data.map Prod.fst)).filter fun p => !existsF p) = []
  · rw [if_pos hempty] at h
    exact absurd h (by simp)
  · rw [if_neg hempty] at h
    rcases hsort : sortBy groupBefore (groupNominations (nominationsOf
        ((sortBy strLtB (data.map Prod.fst)).filter fun p => !existsF p) localFiles)) with
      _ | ⟨⟨bestRoot, ms⟩, tail⟩
    · rw [hsort] at h
      exact absurd h (by simp)
    · rw [hsort] at h
      dsimp only at h
      rcases hms : ms with _ | ⟨firstNom, msRest⟩
      · rw [hms] at h
        exact absurd h (by simp)
      · rw [hms] at h
        dsimp only at h
        rcases hlr : localRootOf firstNom with _ | lr
        · rw [hlr] at h
          exact absurd h (by simp)
        · rw [hlr] at h
          have hWL : bestRoot = W ∧ lr = L := by
            have := List.cons.injEq .. |>.mp h
            exact ⟨(Prod.mk.injEq .. |>.mp this.1).1, (Prod.mk.injEq .. |>.mp this.1).2⟩
          obtain ⟨hW, hL⟩ := hWL
          subst hW
          subst hL
          subst hms
          refine ⟨firstNom :: msRest, ?_, ?_, ⟨firstNom, msRest, rfl, hlr⟩, ?_, ?_⟩
          · exact (mem_sortBy groupBefore _ _).mp (hsort ▸ List.mem_cons_self _ _)
          · intro g hg
            have hfalse := sortBy_head_min groupBefore groupBefore_irrefl
              (fun a b c => groupBefore_trans a b c) _ _ _ hsort g hg
            by_cases hlen : g.2.length = (firstNom :: msRest).length
            · refine Or.inr ⟨hlen, ?_⟩
              simpa [groupBefore, hlen] using hfalse
            · refine Or.inl ?_
              simp only [groupBefore] at hfalse
              rw [if_pos (by simpa using hlen)] at hfalse
              have hnot : ¬(firstNom :: msRest).length < g.2.length := by
                simpa using hfalse
              simp only [List.length_cons] at hlen hnot ⊢
              omega
          · intro p
            by_cases hp : strHasPre p (bestRoot : String) = true
            · simp [applyMappings, List.find?, hp]
            · simp only [Bool.not_eq_true] at hp
              simp [applyMappings, List.find?, hp]
          · simp only [remapCoveragePaths, remapEntriesWith, hdet]

/-- C3 witness: payload `/app/src/foo.js`, local index `src/foo.js ↦
/local/src/foo.js`, local files existing under `/local`; the detected
mapping is `/app/ ↦ /local/`. -/
theorem c3_reconciler_winner_witness :
    ∃ ms : List Nomination,
      ("/app/", ms) ∈ groupNominations (nominationsOf
          ((sortBy strLtB ([("/app/src/foo.js",
              (⟨none, ""⟩ : JSVal))].map Prod.fst)).filter
            fun p => !(strHasPre p "/local"))
          [("src/foo.js", "/local/src/foo.js")]) ∧
      (∀ g ∈ groupNominations (nominationsOf
          ((sortBy strLtB ([("/app/src/foo.js",
              (⟨none, ""⟩ : JSVal))].map Prod.fst)).filter
            fun p => !(strHasPre p "/local"))
          [("src/foo.js", "/local/src/foo.js")]),
        g.2.length < ms.length ∨ (g.2.length = ms.length ∧ strLtB g.1 "/app/" = false)) ∧
      (∃ firstNom rest, ms = firstNom :: rest ∧ localRootOf firstNom = some "/local/") ∧
      (∀ p : String, applyMappings [("/app/", "/local/")] p =
        if strHasPre p "/app/" then
          "/local/" ++ String.mk (p.data.drop "/app/".data.length)
        else p) ∧
      remapCoveragePaths [("/app/src/foo.js", ⟨none, ""⟩)]
          [("src/foo.js", "/local/src/foo.js")] (fun p => strHasPre p "/local") =
        [("/app/src/foo.js", (⟨none, ""⟩ : JSVal))].foldl
          (remapStep [("/app/", "/local/")] fun p => strHasPre p "/local") [] :=
  c3_reconciler_winner [("/app/src/foo.js", ⟨none, ""⟩)]
    [("src/foo.js", "/local/src/foo.js")] (fun p => strHasPre p "/local")
    "/app/" "/local/" (by decide)
